import Mathlib

/-!
Shallow embedding of `dice_utilities.py` (AnyDice utilities) and proofs about it.

Conventions used throughout:
* Python numbers (outcome keys, probabilities, percentiles) are modelled as `ℚ`
  (exact rational arithmetic; the spec fixes no particular precision).
* A Python dict such as a PMF or CDF is modelled by its list of `(key, value)`
  pairs.  `find_percentile` starts from `sorted(cdf_dict.items())` (source line
  29), i.e. the key-sorted, key-distinct pair list a dict always yields, so the
  embedding takes that list as its input; claims that need dict-ness carry a
  strict key-sortedness hypothesis.
* The unbounded `while` loop of `find_percentile` and the unbounded recursion of
  `generate_all_ordered_lists` for non-positive `N` are modelled with an
  explicit fuel parameter; exhausting the fuel at every fuel value models
  non-termination of the Python code.
-/

/-- Python's `round((low + high) / 2)` on naturals: true division by two followed
by round-half-to-even (banker's rounding), as used at source lines 39 and 45. -/
def pyRound2 (s : ℕ) : ℕ :=
  if s % 2 = 0 then s / 2
  else if (s / 2) % 2 = 0 then s / 2 else s / 2 + 1

/-- Outcome of one run of the `while` loop of `find_percentile` (source lines
40-45): the bracketing index `mid` on normal exit, an out-of-range list access
(Python `IndexError`), or fuel exhaustion (the Python loop not terminating
within the given number of iterations). -/
inductive FPLoopOut where
  | bracket : ℕ → FPLoopOut
  | oob : FPLoopOut
  | fuelOut : FPLoopOut
deriving DecidableEq

/-- Result of `find_percentile`: a returned number, a Python `IndexError`, or
divergence (the search loop ran out of fuel). -/
inductive FPResult where
  | val : ℚ → FPResult
  | indexError : FPResult
  | diverge : FPResult
deriving DecidableEq

/-- The `while` loop of `find_percentile` (source lines 40-45).  `mid` is
recomputed from `low` and `high` exactly as Python does (`round((high+low)/2)`).
Python's chained comparison `cdf_values[mid] < percentile <= cdf_values[mid+1]`
short-circuits: `cdf_values[mid + 1]` is only read when
`cdf_values[mid] < percentile` holds, which the nesting below mirrors. -/
def fp_loop (vs : List ℚ) (p : ℚ) : ℕ → ℕ → ℕ → FPLoopOut
  | 0, _, _ => FPLoopOut.fuelOut
  | Nat.succ fuel, low, high =>
    match vs.get? (pyRound2 (low + high)) with
    | none => FPLoopOut.oob
    | some vm =>
      if vm < p then
        match vs.get? (pyRound2 (low + high) + 1) with
        | none => FPLoopOut.oob
        | some vm1 =>
          if p ≤ vm1 then FPLoopOut.bracket (pyRound2 (low + high))
          else fp_loop vs p fuel (pyRound2 (low + high)) high
      else if vm > p then fp_loop vs p fuel low (pyRound2 (low + high))
      else fp_loop vs p fuel (pyRound2 (low + high)) high

/-- `find_percentile` (source lines 28-48).  The input is the key-sorted
`(key, cumulative value)` pair list of source line 29; `cdf.map Prod.fst` is
`cdf_indices` (line 30) and `cdf.map Prod.snd` is `cdf_values` (line 31).
On an empty dict, line 32's `cdf_values[-1]` raises `IndexError`, modelled
first.  Python's `cdf_values[-1]` and `cdf_values[0]` are the last and first
entries.  After the loop brackets `mid`, lines 47-48 interpolate; in that
branch the exit condition guarantees a nonzero denominator, so `ℚ` division
agrees with Python's. -/
def find_percentile (cdf : List (ℚ × ℚ)) (percentile : ℚ) (fuel : ℕ) : FPResult :=
  if (cdf.map Prod.snd) = [] then FPResult.indexError
  else if percentile ≥ (cdf.map Prod.snd).getLastD 0 then
    FPResult.val ((cdf.map Prod.fst).getLastD 0)
  else if percentile ≤ (cdf.map Prod.snd).headD 0 then
    FPResult.val ((cdf.map Prod.fst).headD 0)
  else
    match fp_loop (cdf.map Prod.snd) percentile fuel 0 (cdf.length - 1) with
    | FPLoopOut.bracket mid =>
        FPResult.val ((cdf.map Prod.fst).getD mid 0
          + ((percentile - (cdf.map Prod.snd).getD mid 0)
              / ((cdf.map Prod.snd).getD (mid + 1) 0 - (cdf.map Prod.snd).getD mid 0))
            * ((cdf.map Prod.fst).getD (mid + 1) 0 - (cdf.map Prod.fst).getD mid 0))
    | FPLoopOut.oob => FPResult.indexError
    | FPLoopOut.fuelOut => FPResult.diverge

/-- `find_percentile cdf p` diverges: at every fuel bound the search loop is
still running.  This is how the embedding expresses that the Python `while`
loop never terminates on this input. -/
def fp_diverges (cdf : List (ℚ × ℚ)) (p : ℚ) : Prop :=
  ∀ fuel, find_percentile cdf p fuel = FPResult.diverge

/-- Arbitrarily nested structure of die-like leaves, the implicit data type of
`evaluate_dice_list`'s second argument (source lines 51-65): either a single
non-list value or a Python list of such structures. -/
inductive DiceList (α : Type) where
  | leaf : α → DiceList α
  | node : List (DiceList α) → DiceList α

/-- `evaluate_dice_list` (source lines 51-65).  If the argument is a list, the
function is applied to every top-level element of that list (source line 61:
`[lambda_func(die) for die in dice_list]` — the elements are passed to
`lambda_func` whole, nested sublists included); otherwise the function is
applied to the argument itself (line 65).  The function is modelled as
`DiceList α → DiceList α` so that its results can be compared against nested
structures. -/
def evaluate_dice_list {α : Type} (lambda_func : DiceList α → DiceList α)
    (dice_list : DiceList α) : DiceList α :=
  match dice_list with
  | DiceList.node l => DiceList.node (l.map lambda_func)
  | DiceList.leaf d => lambda_func (DiceList.leaf d)

/-- One pass of the `for each_dice in dice_list` loop body of
`generate_all_dice_combs` (source lines 192-206): cross the accumulated
combinations with one die's PMF items.  A die is modelled by its
`pdf.items()` list of `(roll, chance)` pairs. -/
def dice_comb_step (all_combs : List (ℚ × List ℚ)) (each_dice : List (ℚ × ℚ)) :
    List (ℚ × List ℚ) :=
  all_combs.flatMap (fun old =>
    each_dice.map (fun rc => (old.1 * rc.2, old.2 ++ [rc.1])))

/-- `generate_all_dice_combs` (source lines 181-207): start from the single
combination `(1, [])` (line 190) and fold the per-die cross product over the
dice in order (`copy.deepcopy` is the identity on immutable values). -/
def generate_all_dice_combs (dice_list : List (List (ℚ × ℚ))) : List (ℚ × List ℚ) :=
  dice_list.foldl dice_comb_step [(1, [])]

/-- `generate_all_ordered_lists` (source lines 210-234), with fuel for the
recursion on `N : ℤ` (for `N ≤ 0` the Python code recurses without ever
reaching the `N == 1` stop case).  `comb.getLastD 0` is Python's `comb[-1]`
(every generated `comb` is nonempty, so the default is never read on the paths
Python takes).  The filter condition is line 232 verbatim, with Python's
operator precedence `(value >= comb[-1] and not reverse) or
(value <= comb[-1] and reverse)`. -/
def generate_all_ordered_lists (values_list : List ℚ) (N : ℤ) (reverse : Bool) :
    ℕ → Option (List (List ℚ))
  | 0 => none
  | Nat.succ fuel =>
    if N = 1 then some (values_list.map (fun value => [value]))
    else
      match generate_all_ordered_lists values_list (N - 1) reverse fuel with
      | none => none
      | some old_combs =>
        some (old_combs.flatMap (fun comb =>
          (values_list.filter (fun value =>
            decide ((value ≥ comb.getLastD 0 ∧ reverse = false)
              ∨ (value ≤ comb.getLastD 0 ∧ reverse = true)))).map
            (fun value => comb ++ [value])))

/-- The constant function used in the counterexample to C1: a die-evaluating
function that returns the scalar 7 on every argument. -/
def constSeven : DiceList ℚ → DiceList ℚ := fun _ => DiceList.leaf 7

section Claims

/-- C1 counterexample: with `f = constSeven` and the nested structure
`[d1, [d2, d3]] = [1, [2, 3]]`, `evaluate_dice_list` does not return the
shape-preserving `[f(d1), [f(d2), f(d3)]]`: it applies `f` to the inner list
as a whole, yielding the flat `[7, 7]` instead of `[7, [7, 7]]`. -/
theorem C1_counterexample :
    evaluate_dice_list constSeven
        (DiceList.node [DiceList.leaf (1 : ℚ),
          DiceList.node [DiceList.leaf 2, DiceList.leaf 3]])
      ≠ DiceList.node [constSeven (DiceList.leaf (1 : ℚ)),
          DiceList.node [constSeven (DiceList.leaf 2), constSeven (DiceList.leaf 3)]] := by
  intro h
  simp only [evaluate_dice_list, constSeven, List.map] at h
  have h2 := (DiceList.node.injEq _ _).mp h
  exact absurd (List.cons.injEq _ _ _ _ ▸ h2) (by simp)

/-- C1 amended: `evaluate_dice_list` maps the function over only the top level
of a list argument — each top-level element, nested sublists included, is
passed to the function whole — and applies the function directly to a non-list
argument.  In particular `evaluate_dice_list f [d1, [d2, d3]]
= [f d1, f [d2, d3]]`. -/
theorem C1_theorem : ∀ {α : Type} (f : DiceList α → DiceList α)
    (d1 d2 d3 : DiceList α) (a : α),
    evaluate_dice_list f (DiceList.node [d1, DiceList.node [d2, d3]])
      = DiceList.node [f d1, f (DiceList.node [d2, d3])]
    ∧ (∀ l : List (DiceList α),
        evaluate_dice_list f (DiceList.node l) = DiceList.node (l.map f))
    ∧ evaluate_dice_list f (DiceList.leaf a) = f (DiceList.leaf a) := by
  intro α f d1 d2 d3 a
  exact ⟨rfl, fun l => rfl, rfl⟩

/-- C9: on an empty CDF, `find_percentile` does not raise an
`InvalidDistribution` error: line 32's `cdf_values[-1]` raises a bare
`IndexError` (the very indexing fault the spec forbids). -/
theorem C9_eval : ∀ (p : ℚ) (fuel : ℕ),
    find_percentile [] p fuel = FPResult.indexError := by
  intro p fuel
  rfl

/-- C10: `generate_all_dice_combs` on the empty list of dice returns exactly
the seed combination `(1, [])` — probability 1 with the empty outcome list. -/
theorem C10_theorem : generate_all_dice_combs [] = [(1, [])] := rfl

/-- C8 counterexample: `generate_all_ordered_lists([1,2,3], 0)` does not reject
the call — at recursion bound 50 it is still recursing (no result, and no
error value is ever produced by the code). -/
theorem C8_counterexample :
    generate_all_ordered_lists [1, 2, 3] 0 false 50 = none := by
  decide

/-- C8 amended: for every `N ≤ 0`, `generate_all_ordered_lists` never returns:
the `N == 1` stop case is unreachable and the code recurses indefinitely
(modelled: the result is `none` at every fuel bound).  No `InvalidArgument`
rejection occurs. -/
theorem C8_theorem : ∀ (values_list : List ℚ) (reverse : Bool) (N : ℤ) (fuel : ℕ),
    N ≤ 0 → generate_all_ordered_lists values_list N reverse fuel = none := by
  intro values_list reverse N fuel
  induction fuel generalizing N with
  | zero => intro _; rfl
  | succ k ih =>
    intro hN
    have hne : ¬(N = 1) := by omega
    simp only [generate_all_ordered_lists, if_neg hne]
    rw [ih (N - 1) (by omega)]

/-- C8 witness: the amended theorem applied at `N = 0`. -/
theorem C8_witness :
    (0 : ℤ) ≤ 0 ∧ generate_all_ordered_lists [1, 2, 3] 0 false 7 = none :=
  ⟨le_refl 0, C8_theorem [1, 2, 3] false 0 7 (le_refl 0)⟩

end Claims

section JointHelpers

/-- Scaling every chance of a PMF item list by a fixed factor scales its total. -/
lemma sum_map_mul_snd (d : List (ℚ × ℚ)) (x : ℚ) :
    (d.map (fun rc => x * rc.2)).sum = x * (d.map Prod.snd).sum := by
  induction d with
  | nil => simp
  | cons rc t ih => simp [ih]; ring

/-- One cross-product pass multiplies the total probability mass of the
accumulator by the total mass of the die. -/
lemma dice_comb_step_sum (acc : List (ℚ × List ℚ)) (d : List (ℚ × ℚ)) :
    ((dice_comb_step acc d).map Prod.fst).sum
      = ((acc.map Prod.fst).sum) * ((d.map Prod.snd).sum) := by
  induction acc with
  | nil => simp [dice_comb_step]
  | cons a t ih =>
    simp only [dice_comb_step, List.flatMap_cons, List.map_append, List.sum_append,
      List.map_cons, List.sum_cons] at *
    rw [ih, List.map_map]
    have : (Prod.fst ∘ fun rc : ℚ × ℚ => (a.1 * rc.2, a.2 ++ [rc.1]))
        = fun rc : ℚ × ℚ => a.1 * rc.2 := rfl
    rw [this, sum_map_mul_snd]
    ring

/-- One cross-product pass multiplies the number of combinations by the number
of items of the die. -/
lemma dice_comb_step_length (acc : List (ℚ × List ℚ)) (d : List (ℚ × ℚ)) :
    (dice_comb_step acc d).length = acc.length * d.length := by
  induction acc with
  | nil => simp [dice_comb_step]
  | cons a t ih =>
    simp only [dice_comb_step, List.flatMap_cons, List.length_append, List.length_map,
      List.length_cons] at *
    rw [ih]; ring

/-- Folding the cross-product step over a list of dice with unit-mass PMFs
preserves the accumulator's total probability mass. -/
lemma foldl_dice_comb_step_sum (dice_list : List (List (ℚ × ℚ))) :
    ∀ acc : List (ℚ × List ℚ), (∀ d ∈ dice_list, (d.map Prod.snd).sum = 1) →
      ((dice_list.foldl dice_comb_step acc).map Prod.fst).sum = (acc.map Prod.fst).sum := by
  induction dice_list with
  | nil => intro acc _; rfl
  | cons d t ih =>
    intro acc hall
    have hd : (d.map Prod.snd).sum = 1 := hall d (List.mem_cons_self d t)
    rw [List.foldl_cons, ih (dice_comb_step acc d) (fun x hx => hall x (List.mem_cons_of_mem d hx)),
      dice_comb_step_sum, hd, mul_one]

/-- Folding the cross-product step multiplies the accumulator's length by the
product of the dice's outcome counts. -/
lemma foldl_dice_comb_step_length (dice_list : List (List (ℚ × ℚ))) :
    ∀ acc : List (ℚ × List ℚ),
      (dice_list.foldl dice_comb_step acc).length
        = acc.length * (dice_list.map List.length).prod := by
  induction dice_list with
  | nil => intro acc; simp
  | cons d t ih =>
    intro acc
    rw [List.foldl_cons, ih (dice_comb_step acc d), dice_comb_step_length,
      List.map_cons, List.prod_cons, mul_assoc]

/-- Every combination produced by folding the cross-product step extends some
accumulator entry by one outcome per processed die, position by position. -/
lemma foldl_dice_comb_step_shape (dice_list : List (List (ℚ × ℚ))) :
    ∀ (acc : List (ℚ × List ℚ)) (pr : ℚ × List ℚ),
      pr ∈ dice_list.foldl dice_comb_step acc →
      ∃ pr0, pr0 ∈ acc ∧ ∃ ext, pr.2 = pr0.2 ++ ext ∧
        List.Forall₂ (fun v d => v ∈ d.map Prod.fst) ext dice_list := by
  induction dice_list with
  | nil =>
    intro acc pr h
    exact ⟨pr, h, [], (List.append_nil _).symm, List.Forall₂.nil⟩
  | cons d t ih =>
    intro acc pr h
    obtain ⟨pr1, hpr1, ext1, hext1, hf1⟩ := ih (dice_comb_step acc d) pr h
    obtain ⟨old, hold, hmem⟩ := List.mem_flatMap.mp hpr1
    obtain ⟨rc, hrc, heq⟩ := List.mem_map.mp hmem
    refine ⟨old, hold, rc.1 :: ext1,
      ?_, List.Forall₂.cons (List.mem_map.mpr ⟨rc, hrc, rfl⟩) hf1⟩
    rw [hext1, ← heq]
    simp

end JointHelpers

section JointClaims

/-- C4: whenever every input PMF sums to 1, the probabilities of all
combinations emitted by `generate_all_dice_combs` sum to exactly 1 (exact
rational arithmetic; within 1e-9 a fortiori under floating point). -/
theorem C4_theorem (dice_list : List (List (ℚ × ℚ)))
    (h : ∀ d ∈ dice_list, (d.map Prod.snd).sum = 1) :
    ((generate_all_dice_combs dice_list).map Prod.fst).sum = 1 := by
  unfold generate_all_dice_combs
  rw [foldl_dice_comb_step_sum dice_list [(1, [])] h]
  simp

/-- C4 witness: two concrete 2-outcome PMFs, each of mass 1, whose joint
enumeration has total probability 1. -/
theorem C4_witness :
    (∀ d ∈ [[((1 : ℚ), (1 : ℚ)/2), (2, 1/2)], [(3, 1/3), (4, 2/3)]],
        (d.map Prod.snd).sum = 1)
    ∧ ((generate_all_dice_combs
          [[((1 : ℚ), (1 : ℚ)/2), (2, 1/2)], [(3, 1/3), (4, 2/3)]]).map Prod.fst).sum = 1 := by
  have h : ∀ d ∈ [[((1 : ℚ), (1 : ℚ)/2), (2, 1/2)], [(3, 1/3), (4, 2/3)]],
      (d.map Prod.snd).sum = 1 := by
    intro d hd
    simp only [List.mem_cons, List.not_mem_nil, or_false] at hd
    rcases hd with rfl | rfl <;> norm_num
  exact ⟨h, C4_theorem _ h⟩

/-- C5: `generate_all_dice_combs` on k dice with outcome counts c1, …, ck
emits exactly c1 × … × ck pairs, and every emitted pair's outcome list pairs
off positionally with the dice list: entry i is an outcome (a PMF key) of die
i (`List.Forall₂` forces equal lengths, so each list has length k). -/
theorem C5_theorem (dice_list : List (List (ℚ × ℚ))) :
    (generate_all_dice_combs dice_list).length = (dice_list.map List.length).prod
    ∧ ∀ pr ∈ generate_all_dice_combs dice_list,
        pr.2.length = dice_list.length
        ∧ List.Forall₂ (fun v d => v ∈ d.map Prod.fst) pr.2 dice_list := by
  constructor
  · unfold generate_all_dice_combs
    rw [foldl_dice_comb_step_length dice_list [(1, [])]]
    simp
  · intro pr hpr
    obtain ⟨pr0, hpr0, ext, hext, hf⟩ := foldl_dice_comb_step_shape dice_list [(1, [])] pr hpr
    have hpr0e : pr0 = ((1 : ℚ), ([] : List ℚ)) := by simpa using hpr0
    rw [hpr0e] at hext
    simp only [List.nil_append] at hext
    rw [hext]
    exact ⟨hf.length_eq, hf⟩

/-- C5 witness: the structural theorem applied to two concrete dice with 2 and
3 outcomes: 6 combinations, and the combination `(1/8, [1, 3])` pairs off
positionally with the two dice. -/
theorem C5_witness :
    (generate_all_dice_combs
        [[((1 : ℚ), (1 : ℚ)/2), (2, 1/2)], [(3, 1/4), (4, 1/4), (5, 1/2)]]).length = 6
    ∧ ((1 : ℚ)/8, [(1 : ℚ), 3]) ∈ generate_all_dice_combs
        [[((1 : ℚ), (1 : ℚ)/2), (2, 1/2)], [(3, 1/4), (4, 1/4), (5, 1/2)]]
    ∧ List.Forall₂ (fun (v : ℚ) (d : List (ℚ × ℚ)) => v ∈ d.map Prod.fst)
        [(1 : ℚ), 3] [[((1 : ℚ), (1 : ℚ)/2), (2, 1/2)], [(3, 1/4), (4, 1/4), (5, 1/2)]] := by
  have hmem : ((1 : ℚ)/8, [(1 : ℚ), 3]) ∈ generate_all_dice_combs
      [[((1 : ℚ), (1 : ℚ)/2), (2, 1/2)], [(3, 1/4), (4, 1/4), (5, 1/2)]] := by
    simp only [generate_all_dice_combs, dice_comb_step, List.foldl_cons, List.foldl_nil,
      List.flatMap_cons, List.flatMap_nil, List.map_cons, List.map_nil, List.append_nil,
      List.mem_cons, Prod.mk.injEq]
    norm_num
  have h := C5_theorem [[((1 : ℚ), (1 : ℚ)/2), (2, 1/2)], [(3, 1/4), (4, 1/4), (5, 1/2)]]
  exact ⟨by rw [h.1]; rfl, hmem, (h.2 _ hmem).2⟩

end JointClaims

section OrderedHelpers

/-- A nonempty list's optional last element is its `getLastD`. -/
lemma getLast?_of_ne_nil {l : List ℚ} (h : l ≠ []) :
    l.getLast? = some (l.getLastD 0) := by
  cases l with
  | nil => exact absurd rfl h
  | cons a t =>
    rw [List.getLastD_eq_getLast?, List.getLast?_eq_getLast (a :: t) (by simp)]
    rfl

end OrderedHelpers

section OrderedClaims

/-- C7: every sequence emitted by `generate_all_ordered_lists` for `N ≥ 1` has
length `N` and is monotone in the direction fixed by `reverse` for the whole
call (non-decreasing for `reverse = false`, non-increasing for
`reverse = true`); and concretely
`generate_all_ordered_lists [1,2,3] 2 (reverse := true)` is
`[[1,1],[2,1],[2,2],[3,1],[3,2],[3,3]]`. -/
theorem C7_theorem :
    (∀ (values_list : List ℚ) (N : ℤ) (reverse : Bool) (fuel : ℕ)
        (combs : List (List ℚ)),
      List.Sorted (· ≤ ·) values_list → 1 ≤ N →
      generate_all_ordered_lists values_list N reverse fuel = some combs →
      ∀ c ∈ combs, (c.length : ℤ) = N
        ∧ (reverse = false → List.Chain' (· ≤ ·) c)
        ∧ (reverse = true → List.Chain' (· ≥ ·) c))
    ∧ generate_all_ordered_lists [1, 2, 3] 2 true 2
        = some [[1, 1], [2, 1], [2, 2], [3, 1], [3, 2], [3, 3]] := by
  constructor
  · intro values_list N reverse fuel
    induction fuel generalizing N with
    | zero => intro combs _ _ h; exact absurd h (by simp [generate_all_ordered_lists])
    | succ k ih =>
      intro combs hsorted hN h
      by_cases hN1 : N = 1
      · rw [generate_all_ordered_lists, if_pos hN1] at h
        obtain rfl : (values_list.map (fun value => [value])) = combs :=
          Option.some.injEq _ _ ▸ h
        intro c hc
        obtain ⟨v, _, rfl⟩ := List.mem_map.mp hc
        refine ⟨by simpa using hN1.symm, fun _ => ?_, fun _ => ?_⟩ <;>
          exact List.chain'_singleton v
      · rw [generate_all_ordered_lists, if_neg hN1] at h
        cases hrec : generate_all_ordered_lists values_list (N - 1) reverse k with
        | none => rw [hrec] at h; exact absurd h (by simp)
        | some old_combs =>
          rw [hrec] at h
          obtain rfl : (old_combs.flatMap (fun comb =>
              (values_list.filter (fun value =>
                decide ((value ≥ comb.getLastD 0 ∧ reverse = false)
                  ∨ (value ≤ comb.getLastD 0 ∧ reverse = true)))).map
                (fun value => comb ++ [value]))) = combs :=
            Option.some.injEq _ _ ▸ h
          intro c hc
          obtain ⟨comb, hcomb, hcmem⟩ := List.mem_flatMap.mp hc
          obtain ⟨v, hv, rfl⟩ := List.mem_map.mp hcmem
          obtain ⟨hvvals, hvcond⟩ := List.mem_filter.mp hv
          have hcond := of_decide_eq_true hvcond
          have hold := ih (N - 1) old_combs hsorted (by omega) hrec comb hcomb
          have hlen : (comb.length : ℤ) = N - 1 := hold.1
          have hne : comb ≠ [] := by
            intro hnil
            rw [hnil] at hlen
            simp at hlen
            omega
          have hlast : comb.getLast? = some (comb.getLastD 0) := getLast?_of_ne_nil hne
          have hlen2 : ((comb ++ [v]).length : ℤ) = N := by
            have hl : (comb ++ [v]).length = comb.length + 1 := by simp
            rw [hl]
            push_cast
            omega
          refine ⟨hlen2, ?_, ?_⟩
          · intro hrev
            rcases hcond with ⟨hge, _⟩ | ⟨_, habs⟩
            · refine (List.chain'_append).mpr ⟨hold.2.1 hrev, List.chain'_singleton v, ?_⟩
              intro x hx y hy
              rw [hlast, Option.mem_def, Option.some.injEq] at hx
              rw [show ([v] : List ℚ).head? = some v from rfl,
                Option.mem_def, Option.some.injEq] at hy
              rw [hx] at hge
              rw [hy] at hge
              exact hge
            · rw [hrev] at habs; exact absurd habs (by simp)
          · intro hrev
            rcases hcond with ⟨_, habs⟩ | ⟨hle, _⟩
            · rw [hrev] at habs; exact absurd habs (by simp)
            · refine (List.chain'_append).mpr ⟨hold.2.2 hrev, List.chain'_singleton v, ?_⟩
              intro x hx y hy
              rw [hlast, Option.mem_def, Option.some.injEq] at hx
              rw [show ([v] : List ℚ).head? = some v from rfl,
                Option.mem_def, Option.some.injEq] at hy
              rw [hx] at hle
              rw [hy] at hle
              exact hle
  · rfl

/-- C7 witness: the monotonicity theorem applied to the concrete descending
call, at the emitted sequence `[3, 2]`. -/
theorem C7_witness :
    ((3 : ℤ) - 1 = 2) ∧ List.Chain' (· ≥ ·) [(3 : ℚ), 2] := by
  refine ⟨rfl, ?_⟩
  have h := C7_theorem
  have hmem : [(3 : ℚ), 2] ∈ [[(1 : ℚ), 1], [2, 1], [2, 2], [3, 1], [3, 2], [3, 3]] := by
    decide
  exact (h.1 [1, 2, 3] 2 true 2 [[1, 1], [2, 1], [2, 2], [3, 1], [3, 2], [3, 3]]
    (by norm_num [List.Sorted]) (by norm_num) h.2 [(3 : ℚ), 2] hmem).2.2 rfl

end OrderedClaims

section PercentileHelpers

/-- `pyRound2` stays within the window it bisects. -/
lemma pyRound2_bounds {low high : ℕ} (h : low ≤ high) :
    low ≤ pyRound2 (low + high) ∧ pyRound2 (low + high) ≤ high := by
  unfold pyRound2
  split_ifs <;> omega

/-- On a window of width at least two, `pyRound2` is strictly interior. -/
lemma pyRound2_strict {low high : ℕ} (h : low + 2 ≤ high) :
    low < pyRound2 (low + high) ∧ pyRound2 (low + high) < high := by
  unfold pyRound2
  split_ifs <;> omega

/-- In a pairwise-related list, entries at increasing positions are related. -/
lemma pairwise_get?_rel {R : ℚ → ℚ → Prop} {vs : List ℚ} (hpw : List.Pairwise R vs)
    {i k : ℕ} {vi vk : ℚ} (hi : vs.get? i = some vi) (hk : vs.get? k = some vk)
    (hik : i < k) : R vi vk := by
  obtain ⟨hil, hie⟩ := List.get?_eq_some.mp hi
  obtain ⟨hkl, hke⟩ := List.get?_eq_some.mp hk
  have := List.pairwise_iff_get.mp hpw ⟨i, hil⟩ ⟨k, hkl⟩ hik
  rw [hie, hke] at this
  exact this

/-- Strictly increasing entries at non-decreasing positions are `≤`-related. -/
lemma pairwise_get?_le {vs : List ℚ} (hpw : List.Pairwise (· < ·) vs)
    {i k : ℕ} {vi vk : ℚ} (hi : vs.get? i = some vi) (hk : vs.get? k = some vk)
    (hik : i ≤ k) : vi ≤ vk := by
  rcases Nat.lt_or_ge i k with h | h
  · exact le_of_lt (pairwise_get?_rel hpw hi hk h)
  · have hieq : i = k := Nat.le_antisymm hik h
    subst hieq
    rw [hi] at hk
    exact le_of_eq (Option.some.inj hk)

/-- Non-decreasing entries at non-decreasing positions are `≤`-related. -/
lemma pairwise_get?_mono {vs : List ℚ} (hpw : List.Pairwise (· ≤ ·) vs)
    {i k : ℕ} {vi vk : ℚ} (hi : vs.get? i = some vi) (hk : vs.get? k = some vk)
    (hik : i ≤ k) : vi ≤ vk := by
  rcases Nat.lt_or_ge i k with h | h
  · exact pairwise_get?_rel hpw hi hk h
  · have hieq : i = k := Nat.le_antisymm hik h
    subst hieq
    rw [hi] at hk
    exact le_of_eq (Option.some.inj hk)

/-- A nonempty list's first entry, through `get?`. -/
lemma get?_zero_of_ne_nil {l : List ℚ} (h : l ≠ []) :
    l.get? 0 = some (l.headD 0) := by
  cases l with
  | nil => exact absurd rfl h
  | cons a t => rfl

/-- A nonempty list's last entry, through `get?`. -/
lemma get?_last_of_ne_nil {l : List ℚ} (h : l ≠ []) :
    l.get? (l.length - 1) = some (l.getLastD 0) := by
  rw [← List.getLast?_eq_get?, getLast?_of_ne_nil h]

/-- Every member of a `≤`-pairwise list is at most its last entry. -/
lemma mem_le_getLastD {l : List ℚ} (hpw : List.Pairwise (· ≤ ·) l) {v : ℚ}
    (hv : v ∈ l) : v ≤ l.getLastD 0 := by
  obtain ⟨i, hi⟩ := List.get?_of_mem hv
  have hlen : i < l.length := (List.get?_eq_some.mp hi).1
  exact pairwise_get?_mono hpw hi (get?_last_of_ne_nil (List.ne_nil_of_mem hv)) (by omega)

/-- Every member of a `≤`-pairwise list is at least its first entry. -/
lemma headD_le_mem {l : List ℚ} (hpw : List.Pairwise (· ≤ ·) l) {v : ℚ}
    (hv : v ∈ l) : l.headD 0 ≤ v := by
  obtain ⟨i, hi⟩ := List.get?_of_mem hv
  exact pairwise_get?_mono hpw (get?_zero_of_ne_nil (List.ne_nil_of_mem hv)) hi (by omega)

/-- If the search loop exits with a bracket, the exit condition of source line
40 holds there: `cdf_values[mid] < percentile <= cdf_values[mid + 1]`, with
both accesses in range. -/
lemma fp_loop_bracket_sound (vs : List ℚ) (p : ℚ) :
    ∀ (fuel low high mid : ℕ), fp_loop vs p fuel low high = FPLoopOut.bracket mid →
      ∃ vm vm1, vs.get? mid = some vm ∧ vs.get? (mid + 1) = some vm1 ∧ vm < p ∧ p ≤ vm1 := by
  intro fuel
  induction fuel with
  | zero =>
    intro low high mid h
    exact absurd h (by simp [fp_loop])
  | succ k ih =>
    intro low high mid h
    cases hget : vs.get? (pyRound2 (low + high)) with
    | none =>
      simp only [fp_loop, hget] at h
      exact FPLoopOut.noConfusion h
    | some vm =>
      simp only [fp_loop, hget] at h
      by_cases h1 : vm < p
      · rw [if_pos h1] at h
        cases hget1 : vs.get? (pyRound2 (low + high) + 1) with
        | none =>
          simp only [hget1] at h
          exact FPLoopOut.noConfusion h
        | some vm1 =>
          simp only [hget1] at h
          by_cases h2 : p ≤ vm1
          · rw [if_pos h2] at h
            have hmid : pyRound2 (low + high) = mid := FPLoopOut.bracket.inj h
            rw [hmid] at hget hget1
            exact ⟨vm, vm1, hget, hget1, h1, h2⟩
          · rw [if_neg h2] at h
            exact ih _ _ _ h
      · rw [if_neg h1] at h
        by_cases h3 : vm > p
        · rw [if_pos h3] at h
          exact ih _ _ _ h
        · rw [if_neg h3] at h
          exact ih _ _ _ h

/-- Termination of the bracketed search: if the cumulative values are strictly
increasing, the percentile is not equal to any of them, and some adjacent pair
`j, j + 1` brackets it, then starting from a window that contains the bracket
(with `low` either 0 or left of `j`) the loop exits with a bracket within
`high - low` iterations. -/
lemma fp_loop_terminates (vs : List ℚ) (p : ℚ) (hpw : List.Pairwise (· < ·) vs)
    (hnp : p ∉ vs)
    (j : ℕ) (vj vj1 : ℚ) (hj : vs.get? j = some vj) (hj1 : vs.get? (j + 1) = some vj1)
    (hvj : vj < p) (hvj1 : p < vj1) :
    ∀ (fuel low high : ℕ), (low = 0 ∨ low + 1 ≤ j) → j + 1 ≤ high → high < vs.length →
      high - low ≤ fuel →
      ∃ mid, fp_loop vs p fuel low high = FPLoopOut.bracket mid := by
  intro fuel
  induction fuel with
  | zero =>
    intro low high h1 h2 h3 h4
    exact absurd h4 (by rcases h1 with h | h <;> omega)
  | succ k ih =>
    intro low high h1 h2 h3 h4
    by_cases hw : low + 2 ≤ high
    · obtain ⟨hm1, hm2⟩ := pyRound2_strict hw
      have hmlen : pyRound2 (low + high) < vs.length := lt_trans hm2 h3
      obtain ⟨vm, hvm⟩ : ∃ vm, vs.get? (pyRound2 (low + high)) = some vm :=
        ⟨_, List.get?_eq_get hmlen⟩
      rcases lt_trichotomy vm p with hlt | heq | hgt
      · have hm1len : pyRound2 (low + high) + 1 < vs.length := by omega
        obtain ⟨vm1, hvm1⟩ : ∃ vm1, vs.get? (pyRound2 (low + high) + 1) = some vm1 :=
          ⟨_, List.get?_eq_get hm1len⟩
        by_cases hle : p ≤ vm1
        · refine ⟨pyRound2 (low + high), ?_⟩
          simp only [fp_loop, hvm, hvm1]
          rw [if_pos hlt, if_pos hle]
        · have hvm1lt : vm1 < p := not_le.mp hle
          have hmj : pyRound2 (low + high) + 1 ≤ j := by
            by_contra hcon
            push_neg at hcon
            have hge : vj1 ≤ vm1 := pairwise_get?_le hpw hj1 hvm1 (by omega)
            linarith
          obtain ⟨mid, hmid⟩ := ih (pyRound2 (low + high)) high (Or.inr hmj) h2 h3 (by omega)
          refine ⟨mid, ?_⟩
          simp only [fp_loop, hvm, hvm1]
          rw [if_pos hlt, if_neg hle]
          exact hmid
      · exact absurd (heq ▸ List.get?_mem hvm) hnp
      · have hjm : j + 1 ≤ pyRound2 (low + high) := by
          by_contra hcon
          push_neg at hcon
          have hle : vm ≤ vj := pairwise_get?_le hpw hvm hj (by omega)
          linarith
        obtain ⟨mid, hmid⟩ := ih low (pyRound2 (low + high)) h1 hjm hmlen (by omega)
        refine ⟨mid, ?_⟩
        simp only [fp_loop, hvm]
        rw [if_neg (not_lt.mpr (le_of_lt hgt)), if_pos hgt]
        exact hmid
    · have hj0 : j = 0 ∧ low = 0 ∧ high = 1 := by rcases h1 with h | h <;> omega
      obtain ⟨hj0, hlow, hhigh⟩ := hj0
      subst hj0
      subst hlow
      subst hhigh
      have hmid0 : pyRound2 1 = 0 := by norm_num [pyRound2]
      have hj1b : vs.get? 1 = some vj1 := hj1
      refine ⟨0, ?_⟩
      simp only [fp_loop, hmid0, hj, hj1b]
      rw [if_pos hvj, if_pos (le_of_lt hvj1)]

/-- If the sought percentile lies strictly between the first and last
cumulative value and differs from every cumulative value, some adjacent pair
brackets it strictly. -/
lemma exists_bracket : ∀ (vs : List ℚ) (p : ℚ), p ∉ vs →
    ∀ va vl, vs.head? = some va → vs.getLast? = some vl → va < p → p < vl →
    ∃ j vj vj1, vs.get? j = some vj ∧ vs.get? (j + 1) = some vj1 ∧ vj < p ∧ p < vj1 := by
  intro vs
  induction vs with
  | nil =>
    intro p _ va vl h
    exact absurd h (by simp)
  | cons a t ih =>
    intro p hnp va vl hhead hlast hva hvl
    have hva2 : a = va := Option.some.inj hhead
    cases t with
    | nil =>
      have hvl2 : a = vl := Option.some.inj hlast
      rw [← hva2] at hva
      rw [← hvl2] at hvl
      linarith
    | cons b t2 =>
      by_cases hpb : p < b
      · refine ⟨0, a, b, rfl, rfl, ?_, hpb⟩
        rw [hva2]
        exact hva
      · have hbne : b ≠ p := fun h =>
          hnp (h ▸ List.mem_cons_of_mem a (List.mem_cons_self b t2))
        have hbp : b < p := lt_of_le_of_ne (not_lt.mp hpb) hbne
        have hnp2 : p ∉ b :: t2 := fun h => hnp (List.mem_cons_of_mem a h)
        have hlast2 : (b :: t2).getLast? = some vl := by
          rw [← hlast]
          exact (List.getLast?_cons_cons).symm
        obtain ⟨j, vj, vj1, hjj, hjj1, hh1, hh2⟩ := ih p hnp2 b vl rfl hlast2 hbp hvl
        exact ⟨j + 1, vj, vj1, by simpa using hjj, by simpa using hjj1, hh1, hh2⟩

end PercentileHelpers

section PercentileConcrete

/-- On the plateau CDF `[1/5, 1/2, 1/2, 1]` with percentile `1/2`, the search
window sticks at `low = 2, high = 3`: `mid = round(5/2) = 2` (round half to
even), `cdf_values[2] = 1/2` is neither `<` nor `>` the percentile, so
`low = mid` changes nothing. -/
lemma plateau_loop_23 : ∀ n,
    fp_loop [1/5, 1/2, 1/2, 1] (1/2) n 2 3 = FPLoopOut.fuelOut := by
  intro n
  induction n with
  | zero => rfl
  | succ k ih =>
    have h1 : pyRound2 (2 + 3) = 2 := by norm_num [pyRound2]
    simp only [fp_loop, h1]
    norm_num
    exact ih

/-- From the initial window `low = 0, high = 3` the plateau CDF search moves
straight into the stuck window of `plateau_loop_23`. -/
lemma plateau_loop_03 : ∀ n,
    fp_loop [1/5, 1/2, 1/2, 1] (1/2) n 0 3 = FPLoopOut.fuelOut := by
  intro n
  cases n with
  | zero => rfl
  | succ k =>
    have h1 : pyRound2 (0 + 3) = 2 := by norm_num [pyRound2]
    simp only [fp_loop, h1]
    norm_num
    exact plateau_loop_23 k

/-- On the strictly increasing CDF `[1/5, 1/2, 4/5, 1]` with percentile `1/2`
(equal to an interior cumulative value), the window sticks at
`low = 1, high = 2`: `mid = round(3/2) = 2`, `cdf_values[2] = 4/5 > 1/2`, and
`high = mid` changes nothing. -/
lemma exacthit_loop_12 : ∀ n,
    fp_loop [1/5, 1/2, 4/5, 1] (1/2) n 1 2 = FPLoopOut.fuelOut := by
  intro n
  induction n with
  | zero => rfl
  | succ k ih =>
    have h1 : pyRound2 (1 + 2) = 2 := by norm_num [pyRound2]
    simp only [fp_loop, h1]
    norm_num
    exact ih

/-- From the initial window `low = 0, high = 3` the exact-hit search reaches
the stuck window of `exacthit_loop_12` after two iterations. -/
lemma exacthit_loop_03 : ∀ n,
    fp_loop [1/5, 1/2, 4/5, 1] (1/2) n 0 3 = FPLoopOut.fuelOut := by
  intro n
  cases n with
  | zero => rfl
  | succ k =>
    have h1 : pyRound2 (0 + 3) = 2 := by norm_num [pyRound2]
    simp only [fp_loop, h1]
    norm_num
    cases k with
    | zero => rfl
    | succ k2 =>
      have h2 : pyRound2 (0 + 2) = 1 := by norm_num [pyRound2]
      simp only [fp_loop, h2]
      norm_num
      exact exacthit_loop_12 k2

end PercentileConcrete

section PercentileClaims

/-- C2: the code has no zero-width-interval guard.  On the plateau CDF
`{1: 0.2, 2: 0.5, 3: 0.5, 4: 1.0}` queried at the plateau's cumulative value
`p = 0.5` (strictly between the minimum 0.2 and maximum 1.0), `find_percentile`
neither returns the lower bracketing key nor raises: its `while` loop never
terminates (the bracket condition cannot hold on a zero-width interval, and
`low = mid` stops making progress). -/
theorem C2_theorem :
    fp_diverges [((1 : ℚ), 1/5), (2, 1/2), (3, 1/2), (4, 1)] (1/2) := by
  intro fuel
  unfold find_percentile
  norm_num
  rw [plateau_loop_03 fuel]
  simp

/-- C3 counterexample: the search loop does not terminate for every non-empty
CDF and percentile.  On the strictly increasing CDF
`{1: 0.2, 2: 0.5, 3: 0.8, 4: 1.0}` with `p = 0.5` equal to an interior
cumulative value, the loop runs forever (at every fuel bound it is still
running), because `round`'s half-to-even tie-breaking re-selects `mid = 2`
and `low = mid` makes no progress. -/
theorem C3_counterexample :
    fp_diverges [((1 : ℚ), 1/5), (2, 1/2), (3, 4/5), (4, 1)] (1/2) := by
  intro fuel
  unfold find_percentile
  norm_num
  rw [exacthit_loop_03 fuel]
  simp

/-- C3 amended: for a CDF with strictly increasing cumulative values and a
percentile that is not equal to any cumulative value, the search terminates:
`cdf.length` loop iterations always suffice to return a value.  A single-entry
CDF is resolved by the boundary checks alone for any percentile whatsoever —
even with fuel 0, i.e. without the loop ever running (that conjunct carries no
hypothesis beyond non-emptiness and the length). -/
theorem C3_theorem (cdf : List (ℚ × ℚ)) (p : ℚ) (hne : cdf ≠ []) :
    (List.Pairwise (· < ·) (cdf.map Prod.snd) → p ∉ cdf.map Prod.snd →
      ∃ r, find_percentile cdf p cdf.length = FPResult.val r)
    ∧ (cdf.length = 1 → ∀ fuel, ∃ r, find_percentile cdf p fuel = FPResult.val r) := by
  have hvne : ¬((cdf.map Prod.snd) = []) := by simpa using hne
  constructor
  · intro hpw hnp
    by_cases hb1 : p ≥ (cdf.map Prod.snd).getLastD 0
    · refine ⟨(cdf.map Prod.fst).getLastD 0, ?_⟩
      unfold find_percentile
      rw [if_neg hvne, if_pos hb1]
    · by_cases hb2 : p ≤ (cdf.map Prod.snd).headD 0
      · refine ⟨(cdf.map Prod.fst).headD 0, ?_⟩
        unfold find_percentile
        rw [if_neg hvne, if_neg hb1, if_pos hb2]
      · have hhead : (cdf.map Prod.snd).head? = some ((cdf.map Prod.snd).headD 0) := by
          cases hcd : cdf.map Prod.snd with
          | nil => exact absurd hcd hvne
          | cons a t => rfl
        have hlast : (cdf.map Prod.snd).getLast? = some ((cdf.map Prod.snd).getLastD 0) :=
          getLast?_of_ne_nil hvne
        have hha : (cdf.map Prod.snd).headD 0 < p := not_le.mp hb2
        have hll : p < (cdf.map Prod.snd).getLastD 0 := not_le.mp hb1
        obtain ⟨j, vj, vj1, hj, hj1, h1, h2⟩ :=
          exists_bracket (cdf.map Prod.snd) p hnp _ _ hhead hlast hha hll
        have hlen : (cdf.map Prod.snd).length = cdf.length := List.length_map _ _
        have hj1len : j + 1 < (cdf.map Prod.snd).length := (List.get?_eq_some.mp hj1).1
        have hlenpos : 0 < cdf.length := List.length_pos.mpr hne
        obtain ⟨mid, hmid⟩ := fp_loop_terminates (cdf.map Prod.snd) p hpw hnp j vj vj1
          hj hj1 h1 h2 cdf.length 0 (cdf.length - 1) (Or.inl rfl) (by omega) (by omega)
          (by omega)
        refine ⟨(cdf.map Prod.fst).getD mid 0
          + ((p - (cdf.map Prod.snd).getD mid 0)
              / ((cdf.map Prod.snd).getD (mid + 1) 0 - (cdf.map Prod.snd).getD mid 0))
            * ((cdf.map Prod.fst).getD (mid + 1) 0 - (cdf.map Prod.fst).getD mid 0), ?_⟩
        unfold find_percentile
        rw [if_neg hvne, if_neg hb1, if_neg hb2, hmid]
  · intro hlen1 fuel
    cases cdf with
    | nil => exact absurd rfl hne
    | cons a t =>
      have ht : t = [] := by
        have h0 : t.length = 0 := by simpa using hlen1
        exact List.length_eq_zero.mp h0
      subst ht
      by_cases hb : p ≥ ([a].map Prod.snd).getLastD 0
      · refine ⟨([a].map Prod.fst).getLastD 0, ?_⟩
        unfold find_percentile
        rw [if_neg (by simp), if_pos hb]
      · have hb2 : p ≤ ([a].map Prod.snd).headD 0 := by
          have hone : ([a].map Prod.snd).getLastD 0 = ([a].map Prod.snd).headD 0 := rfl
          rw [← hone]
          exact le_of_lt (not_le.mp hb)
        refine ⟨([a].map Prod.fst).headD 0, ?_⟩
        unfold find_percentile
        rw [if_neg (by simp), if_neg hb, if_pos hb2]

/-- C3 witness: the termination theorem applied to the two-entry CDF
`{1: 0.5, 2: 1}` at `p = 3/4` (fuel 2), and — for the single-entry conjunct —
to the CDF `{5: 1}` queried at `p = 1`, its own single cumulative value, with
fuel 0 (the boundary check answers; the loop is never entered). -/
theorem C3_witness :
    find_percentile [((1 : ℚ), (1 : ℚ)/2), (2, 1)] (3/4) 2 ≠ FPResult.diverge
    ∧ find_percentile [((5 : ℚ), 1)] 1 0 ≠ FPResult.diverge := by
  constructor
  · obtain ⟨r, hr⟩ := (C3_theorem [((1 : ℚ), (1 : ℚ)/2), (2, 1)] (3/4) (by simp)).1
      (by norm_num [List.pairwise_cons]) (by norm_num)
    have hr2 : find_percentile [((1 : ℚ), (1 : ℚ)/2), (2, 1)] (3/4) 2 = FPResult.val r := hr
    rw [hr2]
    simp
  · obtain ⟨r, hr⟩ := (C3_theorem [((5 : ℚ), 1)] 1 (by simp)).2 rfl 0
    rw [hr]
    simp

end PercentileClaims

section BoundaryHelpers

/-- A nonempty list contains its `getLastD`. -/
lemma getLastD_mem {l : List ℚ} (h : l ≠ []) : l.getLastD 0 ∈ l := by
  have h1 := getLast?_of_ne_nil h
  have h2 := List.getLast?_eq_getLast l h
  rw [h2] at h1
  rw [← Option.some.inj h1]
  exact List.getLast_mem h

/-- A nonempty list contains its `headD`. -/
lemma headD_mem {l : List ℚ} (h : l ≠ []) : l.headD 0 ∈ l := by
  cases l with
  | nil => exact absurd rfl h
  | cons a t => exact List.mem_cons_self a t

end BoundaryHelpers

section BoundaryClaims

/-- C6 counterexample: the two boundary clauses of the claim conflict on the
CDF `{1: 1, 2: 1}` (non-decreasing, final value 1) at `p = 1`: `p` is both
`≥` the maximum and `≤` the minimum cumulative value; the code's first check
wins and the maximum key 2 is returned, not the minimum key 1 that the
claim's second clause demands. -/
theorem C6_counterexample :
    find_percentile [((1 : ℚ), 1), (2, 1)] 1 0 = FPResult.val 2
    ∧ find_percentile [((1 : ℚ), 1), (2, 1)] 1 0 ≠ FPResult.val 1 := by
  have h : find_percentile [((1 : ℚ), 1), (2, 1)] 1 0 = FPResult.val 2 := by
    unfold find_percentile
    norm_num
    intro hcon
    exact absurd hcon (by simp)
  refine ⟨h, ?_⟩
  rw [h]
  intro hcon
  have h2 := FPResult.val.inj hcon
  norm_num at h2

/-- C6 amended: the two boundary checks are ordered — `p ≥` the last
cumulative value (the maximum, by the third conjunct) returns the last key
(the maximum key, by the fourth conjunct) and takes precedence; only otherwise
does `p ≤` the first cumulative value (the minimum) return the first key (the
minimum key); and every value the function returns, for any fuel, lies in the
closed interval from the first to the last key — no extrapolation. -/
theorem C6_theorem (cdf : List (ℚ × ℚ)) (p : ℚ) (fuel : ℕ) (hne : cdf ≠ [])
    (hkeys : List.Pairwise (· < ·) (cdf.map Prod.fst))
    (hvals : List.Pairwise (· ≤ ·) (cdf.map Prod.snd)) :
    (p ≥ (cdf.map Prod.snd).getLastD 0 →
      find_percentile cdf p fuel = FPResult.val ((cdf.map Prod.fst).getLastD 0))
    ∧ (¬ p ≥ (cdf.map Prod.snd).getLastD 0 → p ≤ (cdf.map Prod.snd).headD 0 →
      find_percentile cdf p fuel = FPResult.val ((cdf.map Prod.fst).headD 0))
    ∧ (∀ v ∈ cdf.map Prod.snd,
        (cdf.map Prod.snd).headD 0 ≤ v ∧ v ≤ (cdf.map Prod.snd).getLastD 0)
    ∧ (∀ q ∈ cdf.map Prod.fst,
        (cdf.map Prod.fst).headD 0 ≤ q ∧ q ≤ (cdf.map Prod.fst).getLastD 0)
    ∧ (∀ r, find_percentile cdf p fuel = FPResult.val r →
        (cdf.map Prod.fst).headD 0 ≤ r ∧ r ≤ (cdf.map Prod.fst).getLastD 0) := by
  have hvne : ¬((cdf.map Prod.snd) = []) := by simpa using hne
  have hkne : (cdf.map Prod.fst) ≠ [] := by simpa using hne
  have hkeyle : List.Pairwise (· ≤ ·) (cdf.map Prod.fst) := hkeys.imp le_of_lt
  refine ⟨?_, ?_, ?_, ?_, ?_⟩
  · intro hb1
    unfold find_percentile
    rw [if_neg hvne, if_pos hb1]
  · intro hb1 hb2
    unfold find_percentile
    rw [if_neg hvne, if_neg hb1, if_pos hb2]
  · intro v hv
    exact ⟨headD_le_mem hvals hv, mem_le_getLastD hvals hv⟩
  · intro q hq
    exact ⟨headD_le_mem hkeyle hq, mem_le_getLastD hkeyle hq⟩
  · intro r heq
    unfold find_percentile at heq
    rw [if_neg hvne] at heq
    by_cases hb1 : p ≥ (cdf.map Prod.snd).getLastD 0
    · rw [if_pos hb1] at heq
      have hr : (cdf.map Prod.fst).getLastD 0 = r := FPResult.val.inj heq
      rw [← hr]
      exact ⟨headD_le_mem hkeyle (getLastD_mem hkne), le_refl _⟩
    · rw [if_neg hb1] at heq
      by_cases hb2 : p ≤ (cdf.map Prod.snd).headD 0
      · rw [if_pos hb2] at heq
        have hr : (cdf.map Prod.fst).headD 0 = r := FPResult.val.inj heq
        rw [← hr]
        exact ⟨le_refl _, mem_le_getLastD hkeyle (headD_mem hkne)⟩
      · rw [if_neg hb2] at heq
        cases hloop : fp_loop (cdf.map Prod.snd) p fuel 0 (cdf.length - 1) with
        | oob =>
          rw [hloop] at heq
          exact FPResult.noConfusion heq
        | fuelOut =>
          rw [hloop] at heq
          exact FPResult.noConfusion heq
        | bracket mid =>
          rw [hloop] at heq
          have hr := FPResult.val.inj heq
          obtain ⟨vm, vm1, hvm, hvm1, hvmp, hpvm1⟩ :=
            fp_loop_bracket_sound (cdf.map Prod.snd) p fuel 0 (cdf.length - 1) mid hloop
          have hmlen : mid < (cdf.map Prod.snd).length := (List.get?_eq_some.mp hvm).1
          have hm1len : mid + 1 < (cdf.map Prod.snd).length := (List.get?_eq_some.mp hvm1).1
          have hklen : (cdf.map Prod.fst).length = (cdf.map Prod.snd).length := by
            rw [List.length_map, List.length_map]
          obtain ⟨km, hkm⟩ : ∃ km, (cdf.map Prod.fst).get? mid = some km :=
            ⟨_, List.get?_eq_get (by omega)⟩
          obtain ⟨km1, hkm1⟩ : ∃ km1, (cdf.map Prod.fst).get? (mid + 1) = some km1 :=
            ⟨_, List.get?_eq_get (by omega)⟩
          have hgvm : (cdf.map Prod.snd).getD mid 0 = vm := by
            rw [List.getD_eq_get?, hvm]
            rfl
          have hgvm1 : (cdf.map Prod.snd).getD (mid + 1) 0 = vm1 := by
            rw [List.getD_eq_get?, hvm1]
            rfl
          have hgkm : (cdf.map Prod.fst).getD mid 0 = km := by
            rw [List.getD_eq_get?, hkm]
            rfl
          have hgkm1 : (cdf.map Prod.fst).getD (mid + 1) 0 = km1 := by
            rw [List.getD_eq_get?, hkm1]
            rfl
          rw [hgvm, hgvm1, hgkm, hgkm1] at hr
          have hkmlt : km < km1 := pairwise_get?_rel hkeys hkm hkm1 (by omega)
          have hd : 0 < vm1 - vm := by linarith
          have halpha_pos : 0 < (p - vm) / (vm1 - vm) := div_pos (by linarith) hd
          have halpha_le : (p - vm) / (vm1 - vm) ≤ 1 := (div_le_one hd).mpr (by linarith)
          have hkd : (0 : ℚ) ≤ km1 - km := by linarith
          have hprod_le : (p - vm) / (vm1 - vm) * (km1 - km) ≤ 1 * (km1 - km) :=
            mul_le_mul_of_nonneg_right halpha_le hkd
          have hprod_pos : 0 ≤ (p - vm) / (vm1 - vm) * (km1 - km) :=
            mul_nonneg (le_of_lt halpha_pos) hkd
          have hk0 : (cdf.map Prod.fst).get? 0 = some ((cdf.map Prod.fst).headD 0) :=
            get?_zero_of_ne_nil hkne
          have hklast : (cdf.map Prod.fst).get? ((cdf.map Prod.fst).length - 1)
              = some ((cdf.map Prod.fst).getLastD 0) := get?_last_of_ne_nil hkne
          have hh1 : (cdf.map Prod.fst).headD 0 ≤ km :=
            pairwise_get?_le hkeys hk0 hkm (by omega)
          have hh2 : km1 ≤ (cdf.map Prod.fst).getLastD 0 :=
            pairwise_get?_le hkeys hkm1 hklast (by omega)
          rw [← hr]
          constructor
          · linarith
          · linarith

/-- C6 witness: the amended theorem applied to the CDF `{1: 0.5, 2: 1}` at
`p = 2 ≥` the maximum cumulative value: the maximum key 2 is returned. -/
theorem C6_witness :
    find_percentile [((1 : ℚ), (1 : ℚ)/2), (2, 1)] 2 3 = FPResult.val 2 := by
  have h := (C6_theorem [((1 : ℚ), (1 : ℚ)/2), (2, 1)] 2 3 (by simp)
    (by norm_num [List.pairwise_cons]) (by norm_num [List.pairwise_cons])).1 (by norm_num)
  exact h

end BoundaryClaims
